import Mathlib

/-!
Honeypot: the streaming exporter, the export cycle and the decoy selection.

A shallow embedding of `main.go`:

* `readWrapper.Read`, the `io.Reader` that turns the rows of
  `select rowid, entry from log` into one JSON array, together with a consumer
  (`pull`) that calls it the way `io.Copy` does;
* `report`, the export cycle with its prune step;
* the two records the program appends to the log;
* `server.ServeHTTP`, the decoy selection by CRC-64 of the `Host` string.

Go byte slices and strings are lists of bytes, `nil` slices are `none`,
`uint64` values are natural numbers below `2 ^ 64`, a Go panic is `none`.
-/

namespace Honeypot

/-! ## Bytes and Go strings -/

/-- One byte of a Go `[]byte` or `string`. -/
abbrev Byte := UInt8

/-- A Go `string`: an arbitrary byte sequence, not necessarily valid UTF-8. -/
abbrev GoString := List Byte

/-- The bytes of a string literal of the source (its UTF-8 encoding). -/
def goStr (s : String) : GoString := s.data.flatMap String.utf8EncodeChar

/-! ## The log table and the cursor of `db.Query` -/

/-- One row of `select rowid, entry from log`. -/
structure Row where
  id : Int
  entry : List Byte
deriving DecidableEq, Repr

/-- What `rows.Scan(&r.id, &r.current)` does on the row `rows.Next()` advanced to:
it fills both destinations, or it returns an error after having written the
first destination or not. -/
inductive Fetched
  | ok (row : Row)
  | scanErr (idWritten : Option Int)
deriving DecidableEq, Repr

/-- The errors `Read` returns. -/
inductive Err
  | EOF
  | scan
deriving DecidableEq, Repr

/-- The struct `readWrapper`: `rows` is what the cursor has not yielded yet,
`current` is `none` for a nil slice. -/
structure readWrapper where
  rows : List Fetched
  id : Int
  current : Option (List Byte)
deriving DecidableEq, Repr

/-- The values of one call of `Read`: the wrapper and the buffer after the call
and the pair `(n, err)` the call returned. -/
structure ReadResult where
  r : readWrapper
  p : List Byte
  n : Nat
  err : Option Err
deriving DecidableEq, Repr

/-- Go builtin `copy(dst, src)`: the destination after the copy and the number of
bytes copied, `min(len(dst), len(src))`. -/
def copy (dst src : List Byte) : List Byte × Nat :=
  let k := min dst.length src.length
  (src.take k ++ dst.drop k, k)

/-- The tail of `Read` from `bytes := copy(next, r.current)` on: `head` is what the
buffer holds before the window `next`, and `n` is the local of that name. -/
def Read.finish (rows : List Fetched) (id : Int) (head next cur : List Byte) (n : Nat) :
    ReadResult :=
  let c := copy next cur
  let bytes := c.2
  let current := if bytes = cur.length then none else some (cur.drop bytes)
  { r := { rows := rows, id := id, current := current }, p := head ++ c.1, n := bytes + n,
    err := none }

/-- Method `(r *readWrapper) Read(p []byte) (int, error)`.
The result is `none` when an index expression panics (`p[0]` on an empty buffer,
`p[1]` on a buffer of length one). When `r.current` is not nil the window `next`
keeps its zero value, a nil slice: it is the empty list and the buffer stays as
it is. -/
def readWrapper.Read (r : readWrapper) (p : List Byte) : Option ReadResult :=
  match r.current with
  | none =>
    match r.rows with
    | [] =>
      -- `!r.rows.Next()`
      if r.id = 0 then
        if 2 ≤ p.length then
          some { r := r, p := (p.set 0 91).set 1 93, n := 2, err := some Err.EOF }
        else none
      else
        if 1 ≤ p.length then
          some { r := r, p := p.set 0 93, n := 1, err := some Err.EOF }
        else none
    | f :: rest =>
      if 1 ≤ p.length then
        -- `p[0] = ','`, and `p[0] = '['` when `r.id == 0`
        let p := p.set 0 44
        let p := if r.id = 0 then p.set 0 91 else p
        -- `next = p[1:]`, `n++`
        match f with
        | Fetched.scanErr w =>
          some { r := { rows := rest, id := w.getD r.id, current := none }, p := p, n := 0,
                 err := some Err.scan }
        | Fetched.ok row => some (Read.finish rest row.id (p.take 1) (p.drop 1) row.entry 1)
      else none
  | some cur => some (Read.finish r.rows r.id p [] cur 0)

/-- The wrapper `report` builds: `&readWrapper{rows: rows}` over the rows the
query returns. -/
def fresh (store : List Row) : readWrapper :=
  { rows := store.map Fetched.ok, id := 0, current := none }

/-- One entry of the transcript of a consumer: the bytes `p[:n]` a call of `Read`
handed over and the error it returned. -/
structure Call where
  chunk : List Byte
  err : Option Err
deriving DecidableEq, Repr

/-- A consumer in the manner of `io.Copy`: it calls `Read` with the buffers of
`bufs`, one per call, and stops at the first call that returns a non-nil error
or when the buffers run out. The result is the transcript and the wrapper at the
end, or `none` when a call panicked. -/
def pull : readWrapper → List (List Byte) → Option (List Call × readWrapper)
  | r, [] => some ([], r)
  | r, p :: ps =>
    match r.Read p with
    | none => none
    | some res =>
      match res.err with
      | some e => some ([{ chunk := res.p.take res.n, err := some e }], res.r)
      | none =>
        match pull res.r ps with
        | none => none
        | some (cs, r') => some ({ chunk := res.p.take res.n, err := none } :: cs, r')

/-- The bytes a consumer has received: the chunks of its transcript, in order. -/
def emitted (cs : List Call) : List Byte := (cs.map Call.chunk).flatten

/-- Whether the last call of a transcript returned `io.EOF`. -/
def endsEOF (cs : List Call) : Bool :=
  match cs.getLast? with
  | some c => c.err == some Err.EOF
  | none => false

/-- The output grammar in the words of the specification: an opening bracket,
the entries separated by single commas, a closing bracket. -/
def jsonArray (entries : List (List Byte)) : List Byte :=
  [91] ++ List.intercalate [44] entries ++ [93]

/-- A buffer of `n` zero bytes, `make([]byte, n)`. -/
def mkBuf (n : Nat) : List Byte := List.replicate n 0

/-- The id of the last row of a table, `0` for a table without rows. -/
def lastId (store : List Row) : Int :=
  match store.getLast? with
  | some row => row.id
  | none => 0

/-- The calls that hand over one whole row each: the separator, an opening
bracket for the first row and a comma for the others, then the row. -/
def rowCalls (first : Bool) : List Row → List Call
  | [] => []
  | row :: rest =>
    { chunk := (if first then 91 else 44) :: row.entry, err := none } :: rowCalls false rest

/-- Where a wrapper stands in the table `store` once it has handed over the bytes
`out`: it is the fresh wrapper and nothing was handed over, or the separator of
the row `row` was the last one handed over, `sent` of that row followed it and
`rest` of it is pending in `current`. -/
def Progress (store : List Row) (out : List Byte) (r : readWrapper) : Prop :=
  (out = [] ∧ r = fresh store) ∨
  ∃ pre row post sent rest,
    store = pre ++ row :: post ∧ r.rows = post.map Fetched.ok ∧ r.id = row.id ∧
    sent ++ rest = row.entry ∧ r.current = (if rest = [] then none else some rest) ∧
    out = [91] ++ List.intercalate [44] (pre.map Row.entry ++ [sent])

/-- The table of the example of the specification: three rows inserted in this
order. -/
def demoStore : List Row :=
  [{ id := 1, entry := goStr "\x7b\"a\":1\x7d" },
   { id := 2, entry := goStr "\x7b\"b\":2\x7d" },
   { id := 3, entry := goStr "\x7b\"c\":3\x7d" }]

/-! ## The export cycle `report` -/

/-- The statement `delete from log where rowid < ?` run with the bound `H`. -/
def deleteBelow (H : Int) (store : List Row) : List Row :=
  store.filter fun row => !decide (row.id < H)

/-- The prune step of `report`: `if wrap.id > 0` the delete statement is run; when
`db.Exec` returns an error the table is as it was. -/
def prune (execErr : Bool) (id : Int) (store : List Row) : List Row :=
  if id > 0 then
    if execErr then store else deleteBelow id store
  else store

/-- What the surroundings decide in one run of `report`: whether `db.Query`
fails, the buffers the HTTP transport hands to `wrap.Read` while `http.Post` sends
the body, whether `http.Post` returns an error, whether the delete fails. -/
structure Cycle where
  queryErr : Bool
  bufs : List (List Byte)
  postErr : Bool
  execErr : Bool

/-- The outcome of one run of `report`: the table afterwards, the bound of the
delete statement it issued (if it issued one), the transcript of the reads of
the request body and the value of `wrap.id` when `http.Post` came back. -/
structure Reported where
  store : List Row
  deleted : Option Int
  sent : List Call
  id : Int
deriving DecidableEq, Repr

/-- The closure `report` of `main`. The query yields the rows of the table in
rowid order; `none` stands for a panic inside `Read`. -/
def report (c : Cycle) (store : List Row) : Option Reported :=
  if c.queryErr then
    some { store := store, deleted := none, sent := [], id := 0 }
  else
    match pull (fresh store) c.bufs with
    | none => none
    | some (cs, wrap) =>
      if c.postErr then
        some { store := store, deleted := none, sent := cs, id := wrap.id }
      else
        some { store := prune c.execErr wrap.id store,
               deleted := if wrap.id > 0 then some wrap.id else none,
               sent := cs, id := wrap.id }

/-- A cycle in which the query succeeds, the transport reads with four buffers of
eight bytes, and `http.Post` and the delete succeed. -/
def demoCycle : Cycle :=
  { queryErr := false, bufs := List.replicate 4 (mkBuf 8), postErr := false, execErr := false }

/-- A cycle in which `http.Post` returns an error after one read of the body. -/
def failedCycle : Cycle :=
  { queryErr := false, bufs := [mkBuf 8], postErr := true, execErr := false }

/-! ## The records appended to the log -/

/-- The values the handlers put into the `map[string]interface{}` they marshal. -/
inductive JVal
  | str (s : GoString)
  | num (n : Int)
  | header (h : List (GoString × List GoString))
deriving DecidableEq, Repr

/-- A `map[string]interface{}` with the keys in the order they were added. -/
abbrev Info := List (String × JVal)

/-- The assignment `info[k] = v`. -/
def Info.set (info : Info) (k : String) (v : JVal) : Info :=
  (info.filter fun kv => kv.1 != k) ++ [(k, v)]

/-- Whether the object has the key `k`. -/
def Info.hasKey (info : Info) (k : String) : Bool := (info.map Prod.fst).contains k

/-- The fields of `*http.Request` the handler reads; `URL` is `req.URL.String()`
and `Body` the bytes the body reader would deliver. -/
structure Request where
  RemoteAddr : GoString
  Host : GoString
  Header : List (GoString × List GoString)
  Method : GoString
  URL : GoString
  Proto : GoString
  Body : List Byte

/-- What the surroundings decide during one call of a handler: the clock
`time.Now().Unix()`, the host part `net.SplitHostPort` returns for the remote
address (`none` when it returns an error) and whether the insert fails. -/
structure HandlerEnv where
  now : Int
  splitHost : Option GoString
  insertErr : Bool

/-- The statements `ioutil.ReadAll(http.MaxBytesReader(res, req.Body, 1024))`: the
first 1024 bytes, and an error when there were more. -/
def readBody (body : List Byte) : List Byte × Option GoString :=
  (body.take 1024, if 1024 < body.length then some (goStr "http: request body too large") else none)

/-- The map `info` of `server.ServeHTTP` at the point where it is marshalled.
`ioutil.ReadAll` never returns a nil slice, so `body` is always set. -/
def httpInfo (env : HandlerEnv) (req : Request) : Info :=
  let address := env.splitHost.getD req.RemoteAddr
  let rd := readBody req.Body
  let info : Info :=
    [("source", JVal.str (goStr "http")),
     ("address", JVal.str address),
     ("host", JVal.str req.Host),
     ("header", JVal.header req.Header),
     ("method", JVal.str req.Method),
     ("url", JVal.str req.URL),
     ("proto", JVal.str req.Proto),
     ("time", JVal.num env.now)]
  let info := match rd.2 with
    | some e => info.set "error" (JVal.str e)
    | none => info
  info.set "body" (JVal.str rd.1)

/-- The values of `ssh.Context` the password handler reads. -/
structure SshContext where
  User : GoString
  ClientVersion : GoString
  RemoteAddr : GoString

/-- The map `info` of the `PasswordHandler` closure at the point where it is
marshalled. -/
def sshInfo (env : HandlerEnv) (ctx : SshContext) (pass : GoString) : Info :=
  let address := env.splitHost.getD ctx.RemoteAddr
  [("type", JVal.str (goStr "ssh")),
   ("user", JVal.str ctx.User),
   ("pass", JVal.str pass),
   ("client_ver", JVal.str ctx.ClientVersion),
   ("address", JVal.str address),
   ("time", JVal.num env.now)]

/-- The outcome of the `PasswordHandler` closure: the record it hands to the
insert, whether the insert stored it, and the answer to the client. -/
structure Attempt where
  record : Info
  stored : Bool
  accepted : Bool

/-- The `PasswordHandler` closure of `main`. -/
def PasswordHandler (env : HandlerEnv) (ctx : SshContext) (pass : GoString) : Attempt :=
  { record := sshInfo env ctx pass, stored := !env.insertErr, accepted := false }

/-! ## CRC-64 as `hash/crc64` computes it -/

/-- The constant `crc64.ECMA`, the ECMA polynomial in reversed form. -/
def ECMA : Nat := 0xC96C5795D7870F42

/-- The complement `^x` of a `uint64`. -/
def not64 (x : Nat) : Nat := x ^^^ (2 ^ 64 - 1)

/-- One round of the inner loop of `crc64.makeTable`:
`if crc&1 == 1 then crc = (crc >> 1) ^ poly else crc >>= 1`. -/
def tableStep (poly crc : Nat) : Nat :=
  if crc % 2 = 1 then (crc / 2) ^^^ poly else crc / 2

/-- The entry `t[i]` of `crc64.MakeTable(poly)`: eight rounds from `uint64(i)`. -/
def MakeTable (poly : Nat) (i : Nat) : Nat := (tableStep poly)^[8] i

/-- The loop of `crc64.update`: `crc = tab[byte(crc)^v] ^ (crc >> 8)` for each byte
`v` of the input. -/
def updateLoop (tab : Nat → Nat) : Nat → List Byte → Nat
  | crc, [] => crc
  | crc, v :: p => updateLoop tab (tab ((crc % 256) ^^^ v.toNat) ^^^ (crc / 256)) p

/-- The function `crc64.update(crc, tab, p)`: complement, loop, complement. -/
def update (crc : Nat) (tab : Nat → Nat) (p : List Byte) : Nat :=
  not64 (updateLoop tab (not64 crc) p)

/-- The checksum of `ServeHTTP`: `crc64.New(crc64.MakeTable(crc64.ECMA))`, one
`Write` of the host bytes, `Sum64()`. -/
def Sum64 (host : GoString) : Nat := update 0 (MakeTable ECMA) host

/-! ## The asset collection `html.Files` -/

mutual
/-- An entry of a directory of the asset collection: a file with its bytes, or a
directory with its entries in the order `ReadDir` lists them. -/
inductive Entry
  | file (name : GoString) (data : List Byte)
  | dir (name : GoString) (children : Entries)
/-- The entries of a directory. -/
inductive Entries
  | nil
  | cons (e : Entry) (rest : Entries)
end

/-- The name `path.Join(dir, name)` for an entry `name` of the directory `dir`:
the root `.` contributes nothing. -/
def pathJoin (dir name : GoString) : GoString :=
  if dir = goStr "." then name else dir ++ goStr "/" ++ name

mutual
/-- The visit of `fs.walkDir` to one entry of the directory `dir`: the callback sees the
entry first and, for a directory, its entries afterwards. Each visit is
recorded with the bytes of the file, `none` for a directory. -/
def walkEntry (dir : GoString) : Entry → List (GoString × Option (List Byte))
  | Entry.file name data => [(pathJoin dir name, some data)]
  | Entry.dir name children =>
    (pathJoin dir name, none) :: walkEntries (pathJoin dir name) children
/-- The loop of `fs.walkDir` over the entries of the directory `dir`. -/
def walkEntries (dir : GoString) : Entries → List (GoString × Option (List Byte))
  | Entries.nil => []
  | Entries.cons e rest => walkEntry dir e ++ walkEntries dir rest
end

/-- The visits of `fs.WalkDir(html.Files, ".", fn)`: the root directory first. -/
def WalkDir (assets : Entries) : List (GoString × Option (List Byte)) :=
  (goStr ".", none) :: walkEntries (goStr ".") assets

/-- The call `fs.ReadFile(html.Files, path)`: the bytes of the file of that name,
`none` for the error it returns on a directory or on a name that does not
exist. -/
def ReadFile (assets : Entries) (path : GoString) : Option (List Byte) :=
  match (WalkDir assets).lookup path with
  | some (some data) => some data
  | _ => none

/-! ## The HTTP handler -/

/-- The slice `servers`. -/
def servers : List GoString :=
  [goStr "Apache/2.4.48 (Unix) OpenSSL/1.1.1k PHP/7.4.24",
   goStr "nginx/1.21.0",
   goStr "Microsoft-IIS/10.0",
   goStr "LiteSpeed",
   goStr "Node.js",
   goStr "PHP/8.0.10",
   goStr "Apache Tomcat/9.0.50",
   goStr "Jetty(9.4.43.v20210629)",
   goStr "rExpress",
   goStr "Python/3.9.5"]

/-- The slice `paths` the callback of `fs.WalkDir` fills: `append(paths, path)` at
every visit. -/
def walkedPaths (assets : Entries) : List GoString := (WalkDir assets).map Prod.fst

/-- What the handler writes to the `http.ResponseWriter`: the `Server` header, the
number whose decimal form is the `Content-Length` header, and the body. -/
structure Response where
  Server : GoString
  ContentLength : Nat
  body : List Byte
deriving DecidableEq, Repr

/-- The second half of `ServeHTTP`, from the checksum on. `none` is a panic: a
slice index out of range, a division by zero, or `panic(err)` after
`fs.ReadFile`. -/
def decoy (assets : Entries) (host : GoString) : Option Response :=
  let result := Sum64 host
  let paths := walkedPaths assets
  match servers[result % servers.length]? with
  | none => none
  | some name =>
    if paths.length = 0 then none
    else
      match paths[result % paths.length]? with
      | none => none
      | some path =>
        match ReadFile assets path with
        | none => none
        | some page => some { Server := name, ContentLength := page.length, body := page }

/-- The outcome of one call of `ServeHTTP`: the record handed to the insert,
whether the insert stored it, and the response (`none` when the handler
panicked). -/
structure Served where
  record : Info
  stored : Bool
  response : Option Response

/-- Method `(s server) ServeHTTP(res, req)`. The values in `info` are strings,
an integer and an `http.Header`, on which `json.Marshal` returns no error. -/
def ServeHTTP (assets : Entries) (env : HandlerEnv) (req : Request) : Served :=
  { record := httpInfo env req, stored := !env.insertErr, response := decoy assets req.Host }

/-- An asset collection with a page, a directory and a page inside it. -/
def demoAssets : Entries :=
  Entries.cons (Entry.file (goStr "a.html") (goStr "<a>"))
    (Entries.cons (Entry.dir (goStr "d")
      (Entries.cons (Entry.file (goStr "b.html") (goStr "<b>")) Entries.nil)) Entries.nil)

/-- A request for the host `a`. -/
def demoGet : Request :=
  { RemoteAddr := goStr "192.0.2.1:4000", Host := goStr "a", Header := [],
    Method := goStr "GET", URL := goStr "/", Proto := goStr "HTTP/1.1", Body := [] }

/-- Another request for the host `a`: another method, URL, header, body and remote
address. -/
def demoPost : Request :=
  { RemoteAddr := goStr "198.51.100.7:5000", Host := goStr "a",
    Header := [(goStr "X-Probe", [goStr "1"])],
    Method := goStr "POST", URL := goStr "/login", Proto := goStr "HTTP/1.0",
    Body := goStr "user=admin" }

/-- Surroundings in which the remote address has no port and the insert
succeeds. -/
def quietEnv : HandlerEnv := { now := 1, splitHost := none, insertErr := false }

/-- Surroundings in which the insert fails. -/
def failingEnv : HandlerEnv :=
  { now := 2, splitHost := some (goStr "198.51.100.7"), insertErr := true }

/-! ## Lists joined by a separator -/

theorem intercalate_cons_cons {α : Type} (sep x y : List α) (l : List (List α)) :
    List.intercalate sep (x :: y :: l) = x ++ sep ++ List.intercalate sep (y :: l) := by
  simp [List.intercalate]

theorem intercalate_snoc {α : Type} (sep b : List α) (ys : List (List α)) (hne : ys ≠ []) :
    List.intercalate sep (ys ++ [b]) = List.intercalate sep ys ++ sep ++ b := by
  induction ys with
  | nil => exact absurd rfl hne
  | cons y t ih =>
    cases t with
    | nil => simp [List.intercalate]
    | cons z t =>
      have h := ih (List.cons_ne_nil z t)
      rw [List.cons_append, List.cons_append, intercalate_cons_cons, intercalate_cons_cons,
        ← List.cons_append, h]
      simp [List.append_assoc]

/-! ## Single calls of `Read` -/

theorem take_set_two (p : List Byte) (a b : Byte) (h : 2 ≤ p.length) :
    ((p.set 0 a).set 1 b).take 2 = [a, b] := by
  match p, h with
  | _ :: _ :: _, _ => simp

theorem take_set_one (p : List Byte) (a : Byte) (h : 1 ≤ p.length) :
    (p.set 0 a).take 1 = [a] := by
  match p, h with
  | _ :: _, _ => simp

/-- A call on an exhausted cursor returns `io.EOF` with the closing bytes and
leaves the wrapper as it is. -/
theorem Read_closing (r : readWrapper) (p : List Byte) (res : ReadResult)
    (hcur : r.current = none) (hrows : r.rows = []) (h : r.Read p = some res) :
    res.r = r ∧ res.err = some Err.EOF ∧
      res.p.take res.n = (if r.id = 0 then [91, 93] else [93]) := by
  unfold readWrapper.Read at h
  rw [hcur, hrows] at h
  by_cases hid : r.id = 0
  · by_cases hp : 2 ≤ p.length
    · simp only [hid, hp, if_true, Option.some.injEq] at h
      subst h
      simp [hid, take_set_two p 91 93 hp]
    · simp [hid, hp] at h
  · by_cases hp : 1 ≤ p.length
    · simp only [hid, hp, if_true, if_false, Option.some.injEq] at h
      subst h
      simp [hid, take_set_one p 93 hp]
    · simp [hid, hp] at h

/-- A call that fetches a row returns the separator and as much of the row as
the buffer holds behind it; what is left of the row becomes `current`. -/
theorem Read_row (r : readWrapper) (p : List Byte) (row : Row) (rest : List Fetched)
    (res : ReadResult) (hcur : r.current = none) (hrows : r.rows = Fetched.ok row :: rest)
    (h : r.Read p = some res) :
    res.err = none ∧
      res.r = { rows := rest, id := row.id,
                current := if min (p.length - 1) row.entry.length = row.entry.length then none
                  else some (row.entry.drop (min (p.length - 1) row.entry.length)) } ∧
      res.p.take res.n
        = (if r.id = 0 then 91 else 44) :: row.entry.take (min (p.length - 1) row.entry.length) := by
  unfold readWrapper.Read at h
  rw [hcur, hrows] at h
  match p with
  | [] => simp at h
  | a :: t =>
    have hset : (if r.id = 0 then ((a :: t).set 0 44).set 0 91 else (a :: t).set 0 44)
        = (if r.id = 0 then 91 else 44) :: t := by
      by_cases hid : r.id = 0 <;> simp [hid]
    simp only [List.length_cons, Nat.le_add_left, if_true, hset, Option.some.injEq] at h
    subst h
    simp only [Read.finish, copy, List.length_cons, Nat.add_sub_cancel, List.take_succ_cons,
      List.take_zero, List.drop_succ_cons, List.drop_zero, List.singleton_append, true_and]
    have hlen : (row.entry.take (min t.length row.entry.length)).length
        = min t.length row.entry.length := by
      simp
    rw [List.take_append_eq_append_take, hlen]
    simp

/-- A call while a part of a row is pending copies nothing: the window `next` is
nil, so the call returns `(0, nil)` and the wrapper stays as it is. -/
theorem Read_stuck (r : readWrapper) (p cur : List Byte) (hcur : r.current = some cur)
    (hne : cur ≠ []) : r.Read p = some { r := r, p := p, n := 0, err := none } := by
  unfold readWrapper.Read
  rw [hcur]
  have hlen : ¬ (0 = cur.length) := fun h => hne (List.length_eq_zero.mp h.symm)
  cases r
  simp_all [Read.finish, copy]

/-! ## Runs of the consumer -/

theorem endsEOF_cons (c : Call) (cs : List Call) :
    endsEOF (c :: cs) = if cs = [] then c.err == some Err.EOF else endsEOF cs := by
  cases cs with
  | nil => simp [endsEOF]
  | cons d t => simp [endsEOF, List.getLast?_cons_cons]

theorem emitted_cons (c : Call) (cs : List Call) :
    emitted (c :: cs) = c.chunk ++ emitted cs := by
  simp [emitted]

theorem lastId_concat (pre : List Row) (row : Row) : lastId (pre ++ [row]) = row.id := by
  simp [lastId]

theorem drop_min_eq_nil (n : Nat) (l : List Byte) :
    (min n l.length = l.length) ↔ l.drop (min n l.length) = [] := by
  rw [List.drop_eq_nil_iff]
  omega

/-- One call of `Read` from a state of `Progress` either stays in `Progress` with the
bytes of the call appended, or it is the call that returns `io.EOF` and completes
the array. -/
theorem Read_progress (store : List Row) (hpos : ∀ row ∈ store, 0 < row.id)
    (out : List Byte) (r : readWrapper) (p : List Byte) (res : ReadResult)
    (hinv : Progress store out r) (h : r.Read p = some res) :
    (res.err = none ∧ Progress store (out ++ res.p.take res.n) res.r) ∨
    (res.err = some Err.EOF ∧ res.r = r ∧ r.id = lastId store ∧
      out ++ res.p.take res.n = jsonArray (store.map Row.entry)) := by
  rcases hinv with ⟨hout, hr⟩ | ⟨pre, row, post, sent, rest, hstore, hrows, hid, hsplit, hcur, hout⟩
  · subst hout hr
    cases store with
    | nil =>
      obtain ⟨h1, h2, h3⟩ := Read_closing (fresh []) p res rfl rfl h
      right
      refine ⟨h2, h1, rfl, ?_⟩
      rw [h3]
      simp [fresh, jsonArray, List.intercalate]
    | cons row post =>
      obtain ⟨h1, h2, h3⟩ := Read_row (fresh (row :: post)) p row (post.map Fetched.ok) res rfl rfl h
      left
      refine ⟨h1, Or.inr ⟨[], row, post, row.entry.take (min (p.length - 1) row.entry.length),
        row.entry.drop (min (p.length - 1) row.entry.length), rfl, ?_, ?_, ?_, ?_, ?_⟩⟩
      · rw [h2]
      · rw [h2]
      · exact List.take_append_drop _ _
      · rw [h2]
        by_cases hk : min (p.length - 1) row.entry.length = row.entry.length
        · rw [if_pos hk, if_pos ((drop_min_eq_nil _ _).mp hk)]
        · rw [if_neg hk, if_neg (fun hd => hk ((drop_min_eq_nil _ _).mpr hd))]
      · rw [h3]
        simp [fresh, List.intercalate]
  · have hmem : row ∈ store := by
      rw [hstore]
      simp
    have hne : r.id ≠ 0 := by
      have := hpos row hmem
      omega
    by_cases hrest : rest = []
    · subst hrest
      rw [List.append_nil] at hsplit
      subst hsplit
      rw [if_pos rfl] at hcur
      cases post with
      | nil =>
        obtain ⟨h1, h2, h3⟩ := Read_closing r p res hcur hrows h
        right
        refine ⟨h2, h1, ?_, ?_⟩
        · rw [hstore, lastId_concat, hid]
        · rw [h3, if_neg hne, hout, hstore]
          simp [jsonArray]
      | cons row2 post2 =>
        obtain ⟨h1, h2, h3⟩ := Read_row r p row2 (post2.map Fetched.ok) res hcur hrows h
        left
        refine ⟨h1, Or.inr ⟨pre ++ [row], row2, post2,
          row2.entry.take (min (p.length - 1) row2.entry.length),
          row2.entry.drop (min (p.length - 1) row2.entry.length), ?_, ?_, ?_, ?_, ?_, ?_⟩⟩
        · rw [hstore]
          simp
        · rw [h2]
        · rw [h2]
        · exact List.take_append_drop _ _
        · rw [h2]
          by_cases hk : min (p.length - 1) row2.entry.length = row2.entry.length
          · rw [if_pos hk, if_pos ((drop_min_eq_nil _ _).mp hk)]
          · rw [if_neg hk, if_neg (fun hd => hk ((drop_min_eq_nil _ _).mpr hd))]
        · rw [h3, if_neg hne, hout, List.map_append, List.map_singleton,
            intercalate_snoc [44] _ (pre.map Row.entry ++ [row.entry]) (by simp)]
          simp
    · rw [if_neg hrest] at hcur
      have hres := Read_stuck r p rest hcur hrest
      rw [hres] at h
      injection h with h
      subst h
      left
      refine ⟨rfl, Or.inr ⟨pre, row, post, sent, rest, hstore, hrows, hid, hsplit, ?_, ?_⟩⟩
      · rw [if_neg hrest]
        exact hcur
      · simpa using hout

/-- A run of the consumer from a state of `Progress` ends in `Progress`, or with
`io.EOF` after the whole array. -/
theorem pull_progress (store : List Row) (hpos : ∀ row ∈ store, 0 < row.id) :
    ∀ (ps : List (List Byte)) (out : List Byte) (r : readWrapper) (cs : List Call)
      (r' : readWrapper), Progress store out r → pull r ps = some (cs, r') →
      (endsEOF cs = true ∧ r'.id = lastId store ∧
        out ++ emitted cs = jsonArray (store.map Row.entry)) ∨
      (endsEOF cs = false ∧ Progress store (out ++ emitted cs) r') := by
  intro ps
  induction ps with
  | nil =>
    intro out r cs r' hinv h
    simp only [pull, Option.some.injEq, Prod.mk.injEq] at h
    obtain ⟨h1, h2⟩ := h
    subst h1 h2
    right
    refine ⟨rfl, ?_⟩
    simpa [emitted] using hinv
  | cons p ps ih =>
    intro out r cs r' hinv h
    unfold pull at h
    cases hread : r.Read p with
    | none => simp [hread] at h
    | some res =>
      rw [hread] at h
      rcases Read_progress store hpos out r p res hinv hread with ⟨herr, hnext⟩ | ⟨herr, hr, hid, hout⟩
      · simp only [herr] at h
        cases hrec : pull res.r ps with
        | none => simp [hrec] at h
        | some pr =>
          obtain ⟨cs1, r1⟩ := pr
          simp only [hrec, Option.some.injEq, Prod.mk.injEq] at h
          obtain ⟨h1, h2⟩ := h
          subst h1 h2
          rcases ih _ res.r cs1 r1 hnext hrec with ⟨he, hid, hout⟩ | ⟨he, hprog⟩
          · left
            have hne : cs1 ≠ [] := by
              intro hnil
              rw [hnil] at he
              simp [endsEOF] at he
            refine ⟨?_, hid, ?_⟩
            · rw [endsEOF_cons, if_neg hne, he]
            · rw [emitted_cons, ← List.append_assoc]
              exact hout
          · right
            refine ⟨?_, ?_⟩
            · rw [endsEOF_cons]
              by_cases hnil : cs1 = []
              · rw [if_pos hnil]
                rfl
              · rw [if_neg hnil, he]
            · rw [emitted_cons, ← List.append_assoc]
              exact hprog
      · simp only [herr, Option.some.injEq, Prod.mk.injEq] at h
        obtain ⟨h1, h2⟩ := h
        subst h1 h2
        left
        refine ⟨by simp [endsEOF], ?_, ?_⟩
        · rw [hr]
          exact hid
        · simpa [emitted] using hout

/-- On a buffer of two bytes or more no index expression of `Read` panics. -/
theorem Read_some (r : readWrapper) (p : List Byte) (hp : 2 ≤ p.length) :
    ∃ res, r.Read p = some res := by
  have hp1 : 1 ≤ p.length := by omega
  unfold readWrapper.Read
  cases r.current with
  | some cur => exact ⟨_, rfl⟩
  | none =>
    cases r.rows with
    | nil =>
      by_cases hid : r.id = 0
      · simp [hid, hp]
      · simp [hid, hp1]
    | cons f rest =>
      cases f with
      | ok row => simp [hp1]
      | scanErr w => simp [hp1]

/-- The consumer returns, whatever the wrapper, when every buffer has two bytes
or more. -/
theorem pull_some : ∀ (ps : List (List Byte)) (r : readWrapper),
    (∀ p ∈ ps, 2 ≤ p.length) → ∃ cs r', pull r ps = some (cs, r') := by
  intro ps
  induction ps with
  | nil => intro r _; exact ⟨[], r, rfl⟩
  | cons p ps ih =>
    intro r hp
    obtain ⟨res, hres⟩ := Read_some r p (hp p (List.mem_cons_self _ _))
    unfold pull
    cases herr : res.err with
    | some e =>
      simp only [hres, herr]
      exact ⟨_, _, rfl⟩
    | none =>
      obtain ⟨cs, r', hrec⟩ := ih res.r (fun q hq => hp q (List.mem_cons_of_mem _ hq))
      simp only [hres, herr, hrec]
      exact ⟨_, _, rfl⟩

/-- While a part of a row is pending every call returns `(0, nil)`: the consumer
uses up its buffers and the wrapper does not move. -/
theorem pull_stuck (cur : List Byte) (hne : cur ≠ []) :
    ∀ (ps : List (List Byte)) (r : readWrapper), r.current = some cur →
      pull r ps = some (ps.map (fun _ => { chunk := [], err := none }), r) := by
  intro ps
  induction ps with
  | nil => intro r _; rfl
  | cons p ps ih =>
    intro r hcur
    unfold pull
    rw [Read_stuck r p cur hcur hne]
    simp only [ih r hcur]
    simp

/-- When every row fits behind its separator, the consumer gets one row per call
and the closing bytes with `io.EOF` in the call after the last row. -/
theorem pull_fit : ∀ (rows : List Row) (ps : List (List Byte)) (id : Int),
    (∀ row ∈ rows, row.id ≠ 0) →
    (∀ p ∈ ps, 2 ≤ p.length ∧ ∀ row ∈ rows, row.entry.length ≤ p.length - 1) →
    rows.length + 1 ≤ ps.length →
    ∃ r', pull { rows := rows.map Fetched.ok, id := id, current := none } ps
      = some (rowCalls (decide (id = 0)) rows
          ++ [{ chunk := if rows = [] ∧ id = 0 then [91, 93] else [93], err := some Err.EOF }],
        r') := by
  intro rows
  induction rows with
  | nil =>
    intro ps id _ hbuf hlen
    match ps, hlen with
    | p :: ps, _ =>
      obtain ⟨res, hres⟩ := Read_some { rows := [], id := id, current := none } p
        (hbuf p (List.mem_cons_self _ _)).1
      obtain ⟨h1, h2, h3⟩ := Read_closing _ p res rfl rfl hres
      refine ⟨res.r, ?_⟩
      unfold pull
      simp only [List.map_nil, hres, h2, h3, rowCalls, List.nil_append, true_and]
  | cons row rows ih =>
    intro ps id hne hbuf hlen
    match ps, hlen with
    | p :: ps, hlen =>
      have hp := hbuf p (List.mem_cons_self _ _)
      obtain ⟨res, hres⟩ := Read_some
        { rows := (row :: rows).map Fetched.ok, id := id, current := none } p hp.1
      obtain ⟨h1, h2, h3⟩ := Read_row _ p row (rows.map Fetched.ok) res rfl rfl hres
      have hk : min (p.length - 1) row.entry.length = row.entry.length :=
        Nat.min_eq_right (hp.2 row (List.mem_cons_self _ _))
      rw [hk] at h2 h3
      simp only [if_true] at h2
      rw [List.take_length] at h3
      obtain ⟨r', hrec⟩ := ih ps row.id (fun q hq => hne q (List.mem_cons_of_mem _ hq))
        (fun q hq => ⟨(hbuf q (List.mem_cons_of_mem _ hq)).1,
          fun q' hq' => (hbuf q (List.mem_cons_of_mem _ hq)).2 q' (List.mem_cons_of_mem _ hq')⟩)
        (by simpa using hlen)
      have hrow : row.id ≠ 0 := hne row (List.mem_cons_self _ _)
      refine ⟨r', ?_⟩
      unfold pull
      rw [hres]
      simp only [h1, h2, hrec, h3]
      simp [rowCalls, hrow]

theorem endsEOF_concat (cs : List Call) (chunk : List Byte) :
    endsEOF (cs ++ [{ chunk := chunk, err := some Err.EOF }]) = true := by
  simp [endsEOF]

theorem endsEOF_of_all_nil (cs : List Call) (h : ∀ c ∈ cs, c.err = none) :
    endsEOF cs = false := by
  unfold endsEOF
  cases hl : cs.getLast? with
  | none => rfl
  | some c =>
    have hc := h c (List.mem_of_getLast?_eq_some hl)
    simp [hc]

theorem emitted_replicate_nil (n : Nat) :
    emitted (List.replicate n ({ chunk := [], err := none } : Call)) = [] := by
  induction n with
  | zero => rfl
  | succ k ih =>
    rw [List.replicate_succ, emitted_cons, ih]
    rfl

theorem rowCalls_length (first : Bool) (rows : List Row) :
    (rowCalls first rows).length = rows.length := by
  induction rows generalizing first with
  | nil => rfl
  | cons row rows ih => simp [rowCalls, ih]

/-! ## The stream of the exporter -/

/-- C1 (the code departs from the claim). The table of the specification's
example, read with buffers of four bytes: the first call hands over the opening
bracket and three bytes of the first row, and every later call, however many the
consumer makes, returns no byte and no error. No call returns `io.EOF` and the
bytes handed over stay at the first four. -/
theorem Read_long_row_never_reaches_EOF (n : Nat) :
    ∃ r, pull (fresh demoStore) (List.replicate (n + 1) (mkBuf 4))
        = some ({ chunk := goStr "[\x7b\"a", err := none }
            :: List.replicate n { chunk := [], err := none }, r) ∧
      r.id = 1 ∧ r.current = some (goStr "\":1\x7d") ∧
      endsEOF ({ chunk := goStr "[\x7b\"a", err := none }
        :: List.replicate n { chunk := [], err := none }) = false ∧
      emitted ({ chunk := goStr "[\x7b\"a", err := none }
        :: List.replicate n { chunk := [], err := none }) = goStr "[\x7b\"a" := by
  have hread : (fresh demoStore).Read (mkBuf 4)
      = some { r := { rows := (demoStore.drop 1).map Fetched.ok, id := 1,
                      current := some (goStr "\":1\x7d") },
               p := goStr "[\x7b\"a", n := 4, err := none } := by
    decide
  have hstuck := pull_stuck (goStr "\":1\x7d") (by decide) (List.replicate n (mkBuf 4))
    { rows := (demoStore.drop 1).map Fetched.ok, id := 1, current := some (goStr "\":1\x7d") } rfl
  refine ⟨{ rows := (demoStore.drop 1).map Fetched.ok, id := 1,
            current := some (goStr "\":1\x7d") }, ?_, rfl, rfl, ?_, ?_⟩
  · rw [List.replicate_succ]
    unfold pull
    rw [hread]
    simp only [hstuck, List.map_replicate]
    rfl
  · apply endsEOF_of_all_nil
    intro c hc
    rcases List.mem_cons.mp hc with h | h
    · rw [h]
    · rw [List.eq_of_mem_replicate h]
  · rw [emitted_cons]
    rw [emitted_replicate_nil, List.append_nil]

/-- C2. When the ids are positive and every row is shorter than each buffer, a
fresh wrapper is drained in exactly one call per row and one more: the call for a
row returns its separator (an opening bracket for the first row, a comma for the
others) and the whole row, the last call returns the closing bracket with
`io.EOF` (both brackets for the empty table), and the bytes together are the
bracketed, comma separated rows. -/
theorem Read_one_call_per_row (store : List Row) (ps : List (List Byte))
    (hpos : ∀ row ∈ store, 0 < row.id)
    (hbuf : ∀ p ∈ ps, 2 ≤ p.length ∧ ∀ row ∈ store, row.entry.length ≤ p.length - 1)
    (hlen : store.length + 1 ≤ ps.length) :
    ∃ cs r, pull (fresh store) ps = some (cs, r) ∧
      cs = rowCalls true store
        ++ [{ chunk := if store = [] then [91, 93] else [93], err := some Err.EOF }] ∧
      cs.length = store.length + 1 ∧
      emitted cs = jsonArray (store.map Row.entry) ∧
      r.id = lastId store := by
  obtain ⟨r, hrun⟩ := pull_fit store ps 0
    (fun row hrow => by have := hpos row hrow; omega) hbuf hlen
  simp only [decide_True, and_true] at hrun
  refine ⟨_, r, hrun, rfl, ?_, ?_⟩
  · simp [rowCalls_length]
  · rcases pull_progress store hpos ps [] (fresh store) _ r (Or.inl ⟨rfl, rfl⟩) hrun with
      ⟨_, hid, hout⟩ | ⟨he, _⟩
    · exact ⟨by simpa using hout, hid⟩
    · rw [endsEOF_concat] at he
      exact absurd he (by decide)

/-- C2 at the table of the specification's example with buffers of eight bytes. -/
theorem Read_one_call_per_row_witness :
    ∃ cs r, pull (fresh demoStore) (List.replicate 4 (mkBuf 8)) = some (cs, r) ∧
      cs = rowCalls true demoStore
        ++ [{ chunk := if demoStore = [] then [91, 93] else [93], err := some Err.EOF }] ∧
      cs.length = demoStore.length + 1 ∧
      emitted cs = jsonArray (demoStore.map Row.entry) ∧
      r.id = lastId demoStore :=
  Read_one_call_per_row demoStore (List.replicate 4 (mkBuf 8)) (by decide) (by decide)
    (by decide)

/-- C3. On a table with positive ids, whatever buffers the consumer passes to a
fresh wrapper: once a call has returned `io.EOF` the field `id` is the id of the
last row of the table, the bytes handed over are the whole array, and `id` is `0`
exactly when the table has no row; before that, `id` is `0` exactly when no byte
was handed over, and otherwise it is the id of the row whose separator was
handed over last (the bytes are the opening bracket, the rows before that row,
and a part `sent` of it, separated by commas). -/
theorem Read_id_is_last_separated_row (store : List Row) (ps : List (List Byte))
    (cs : List Call) (r : readWrapper)
    (hpos : ∀ row ∈ store, 0 < row.id)
    (hrun : pull (fresh store) ps = some (cs, r)) :
    (endsEOF cs = true →
      r.id = lastId store ∧ (r.id = 0 ↔ store = []) ∧
      emitted cs = jsonArray (store.map Row.entry)) ∧
    (endsEOF cs = false →
      (r.id = 0 ↔ emitted cs = []) ∧
      ((emitted cs = [] ∧ r.id = 0) ∨
        ∃ pre row post sent, store = pre ++ row :: post ∧ sent <+: row.entry ∧
          emitted cs = [91] ++ List.intercalate [44] (pre.map Row.entry ++ [sent]) ∧
          r.id = row.id)) := by
  have hmain := pull_progress store hpos ps [] (fresh store) cs r (Or.inl ⟨rfl, rfl⟩) hrun
  simp only [List.nil_append] at hmain
  constructor
  · intro he
    rcases hmain with ⟨_, hid, hout⟩ | ⟨he', _⟩
    · refine ⟨hid, ?_, hout⟩
      rw [hid]
      constructor
      · intro h0
        by_contra hne
        obtain ⟨row, hrow⟩ : ∃ row, store.getLast? = some row := by
          cases hl : store.getLast? with
          | none => exact absurd (List.getLast?_eq_none_iff.mp hl) hne
          | some row => exact ⟨row, rfl⟩
        have hp := hpos row (List.mem_of_getLast?_eq_some hrow)
        simp only [lastId, hrow] at h0
        omega
      · intro hnil
        rw [hnil]
        rfl
    · rw [he] at he'
      exact absurd he' (by decide)
  · intro he
    rcases hmain with ⟨he', _, _⟩ | ⟨_, hprog⟩
    · rw [he] at he'
      exact absurd he' (by decide)
    · rcases hprog with ⟨hout, hr⟩ |
        ⟨pre, row, post, sent, rest, hstore, _, hid, hsplit, _, hout⟩
      · rw [hr]
        exact ⟨⟨fun _ => hout, fun _ => rfl⟩, Or.inl ⟨hout, rfl⟩⟩
      · have hrow : 0 < row.id := hpos row (by rw [hstore]; simp)
        refine ⟨⟨fun h0 => ?_, fun hnil => ?_⟩,
          Or.inr ⟨pre, row, post, sent, hstore, ⟨rest, hsplit⟩, hout, hid⟩⟩
        · omega
        · rw [hout] at hnil
          simp at hnil

/-- C3 at the table of the specification's example, drained with buffers of eight
bytes. -/
theorem Read_id_is_last_separated_row_witness :
    pull (fresh demoStore) (List.replicate 5 (mkBuf 8))
        = some (rowCalls true demoStore ++ [{ chunk := [93], err := some Err.EOF }],
            { rows := [], id := 3, current := none }) ∧
      (3 : Int) = lastId demoStore ∧
      emitted (rowCalls true demoStore ++ [{ chunk := [93], err := some Err.EOF }])
        = jsonArray (demoStore.map Row.entry) :=
  have h := Read_id_is_last_separated_row demoStore (List.replicate 5 (mkBuf 8))
    (rowCalls true demoStore ++ [{ chunk := [93], err := some Err.EOF }])
    { rows := [], id := 3, current := none } (by decide) (by decide)
  ⟨by decide, (h.1 (by decide)).1, (h.1 (by decide)).2.2⟩

/-! ## The export cycle -/

theorem deleteBelow_eq (H : Int) (store : List Row) :
    deleteBelow H store = store.filter (fun row => decide (H ≤ row.id)) := by
  unfold deleteBelow
  congr 1
  funext row
  by_cases h : row.id < H
  · have h2 : ¬ H ≤ row.id := by omega
    simp [h, h2]
  · have h2 : H ≤ row.id := by omega
    simp [h, h2]

/-- C4. The prune step run with the high-water mark `H` (the delete succeeding):
for `H > 0` the table keeps, in their order, exactly the rows with `H ≤ id`, so a
row is in the table afterwards exactly when it was there and its id is not below
`H`; for `H ≤ 0` the table is as it was, whether the delete would succeed or not;
and pruning the pruned table with the same `H` changes nothing. -/
theorem prune_removes_exactly_rows_below (store : List Row) (H : Int) (execErr : Bool) :
    prune false H store
        = (if 0 < H then store.filter (fun row => decide (H ≤ row.id)) else store) ∧
      (∀ row, row ∈ prune false H store ↔ row ∈ store ∧ (0 < H → H ≤ row.id)) ∧
      (H ≤ 0 → prune execErr H store = store) ∧
      prune false H (prune false H store) = prune false H store := by
  have heq : prune false H store
      = (if 0 < H then store.filter (fun row => decide (H ≤ row.id)) else store) := by
    unfold prune
    by_cases h : 0 < H
    · simp [h, deleteBelow_eq]
    · simp [h]
  refine ⟨heq, ?_, ?_, ?_⟩
  · intro row
    rw [heq]
    by_cases h : 0 < H
    · simp [h]
    · simp [h]
  · intro h
    have h2 : ¬ H > 0 := by omega
    simp [prune, h2]
  · unfold prune
    by_cases h : 0 < H
    · simp [h, deleteBelow]
    · simp [h]

/-- C5 (the code departs from the claim). A cycle on a table with rows (positive
ids) in which the query and `http.Post` succeed and the body was read up to
`io.EOF`: the last exported id is the id of the last row of the table, and a
row with that id is still in the table after the cycle, whether the delete
succeeded or not. -/
theorem report_keeps_last_exported_row (c : Cycle) (store : List Row) (res : Reported)
    (hpos : ∀ row ∈ store, 0 < row.id) (hne : store ≠ [])
    (hquery : c.queryErr = false) (hpost : c.postErr = false)
    (hrun : report c store = some res) (heof : endsEOF res.sent = true) :
    res.id = lastId store ∧ res.deleted = some res.id ∧
      ∃ row ∈ res.store, row.id = res.id ∧ row.id ≤ res.id := by
  unfold report at hrun
  rw [hquery, hpost] at hrun
  simp only [Bool.false_eq_true, if_false] at hrun
  cases hpull : pull (fresh store) c.bufs with
  | none => simp [hpull] at hrun
  | some pr =>
    obtain ⟨cs, wrap⟩ := pr
    simp only [hpull, Option.some.injEq] at hrun
    subst hrun
    simp only at heof
    obtain ⟨last, hlast⟩ : ∃ row, store.getLast? = some row := by
      cases hl : store.getLast? with
      | none => exact absurd (List.getLast?_eq_none_iff.mp hl) hne
      | some row => exact ⟨row, rfl⟩
    have hmem : last ∈ store := List.mem_of_getLast?_eq_some hlast
    have hlastId : lastId store = last.id := by simp [lastId, hlast]
    have hid : wrap.id = lastId store := by
      rcases pull_progress store hpos c.bufs [] (fresh store) cs wrap (Or.inl ⟨rfl, rfl⟩) hpull
        with ⟨_, hid, _⟩ | ⟨he, _⟩
      · exact hid
      · rw [heof] at he
        exact absurd he (by decide)
    have hpos' : wrap.id > 0 := by
      have := hpos last hmem
      omega
    refine ⟨hid, by simp [hpos'], last, ?_, ?_, ?_⟩
    · simp only [prune, hpos', if_true]
      by_cases he : c.execErr = true
      · simpa [he] using hmem
      · simp only [he, Bool.false_eq_true, if_false, deleteBelow, List.mem_filter]
        refine ⟨hmem, ?_⟩
        have : ¬ last.id < wrap.id := by omega
        simp [this]
    · simp only
      omega
    · simp only
      omega

/-- C5 at the table of the specification's example: the cycle sends all three
rows, issues the delete with bound 3, and row 3 stays in the table. -/
theorem report_keeps_last_exported_row_witness :
    report demoCycle demoStore
        = some { store := [{ id := 3, entry := goStr "\x7b\"c\":3\x7d" }], deleted := some 3,
                 sent := rowCalls true demoStore ++ [{ chunk := [93], err := some Err.EOF }],
                 id := 3 } ∧
      emitted (rowCalls true demoStore ++ [{ chunk := [93], err := some Err.EOF }])
        = jsonArray (demoStore.map Row.entry) ∧
      ∃ row ∈ [({ id := 3, entry := goStr "\x7b\"c\":3\x7d" } : Row)],
        row.id = 3 ∧ row.id ≤ 3 :=
  ⟨by decide, by decide,
    (report_keeps_last_exported_row demoCycle demoStore
      { store := [{ id := 3, entry := goStr "\x7b\"c\":3\x7d" }], deleted := some 3,
        sent := rowCalls true demoStore ++ [{ chunk := [93], err := some Err.EOF }], id := 3 }
      (by decide) (by decide) rfl rfl (by decide) (by decide)).2.2⟩

/-- C6. When `db.Query` or `http.Post` returns an error, whatever the transport had
read by then (buffers of two bytes or more, any number of them), `report` returns
without a delete statement and the table is the table from before, so that any
later cycle runs on the same rows. -/
theorem report_failure_keeps_every_row (c : Cycle) (store : List Row)
    (hbuf : ∀ p ∈ c.bufs, 2 ≤ p.length)
    (hfail : c.queryErr = true ∨ c.postErr = true) :
    ∃ res, report c store = some res ∧ res.store = store ∧ res.deleted = none ∧
      ∀ retry : Cycle, report retry res.store = report retry store := by
  unfold report
  by_cases hq : c.queryErr = true
  · simp [hq]
  · have hp : c.postErr = true := hfail.resolve_left hq
    obtain ⟨cs, wrap, hpull⟩ := pull_some c.bufs (fresh store) hbuf
    simp [hq, hp, hpull]

/-- C6 at the table of the specification's example, `http.Post` failing after one
read. -/
theorem report_failure_keeps_every_row_witness :
    ∃ res, report failedCycle demoStore = some res ∧ res.store = demoStore ∧
      res.deleted = none ∧
      ∀ retry : Cycle, report retry res.store = report retry demoStore :=
  report_failure_keeps_every_row failedCycle demoStore (by decide) (Or.inr rfl)

/-! ## The records -/

/-- C7 (the code departs from the claim). The record of every SSH password
attempt has the keys `type` (with the value `ssh`) and `time` and no key `source`,
while the record of every HTTP request has both `source` (with the value `http`)
and `time`. -/
theorem ssh_record_has_no_source_key (assets : Entries) (env : HandlerEnv) (ctx : SshContext)
    (pass : GoString) (req : Request) :
    (PasswordHandler env ctx pass).record.hasKey "source" = false ∧
      (PasswordHandler env ctx pass).record.hasKey "time" = true ∧
      (PasswordHandler env ctx pass).record.lookup "type" = some (JVal.str (goStr "ssh")) ∧
      (ServeHTTP assets env req).record.lookup "source" = some (JVal.str (goStr "http")) ∧
      (ServeHTTP assets env req).record.hasKey "time" = true := by
  refine ⟨rfl, rfl, rfl, ?_, ?_⟩
  · simp only [ServeHTTP, httpInfo]
    cases (readBody req.Body).2 <;> rfl
  · simp only [ServeHTTP, httpInfo]
    cases (readBody req.Body).2 <;> rfl

/-! ## The decoy selection -/

/-- C8. For one asset collection, what `ServeHTTP` writes to the response (the
`Server` header, the content length and the body, or the panic) is the same for
two requests with the same `Host`, whatever else the requests hold, whatever
the clock and the remote address, and whether the insert succeeds or fails. When
a response is written, its banner is the entry of `servers` and its body the file
of the walked path at the indices the checksum of the `Host` selects, and the
content length is the length of that body. -/
theorem response_depends_on_host_only (assets : Entries) (env1 env2 : HandlerEnv)
    (req1 req2 : Request) (hhost : req1.Host = req2.Host) :
    (ServeHTTP assets env1 req1).response = (ServeHTTP assets env2 req2).response ∧
      ∀ resp, (ServeHTTP assets env1 req1).response = some resp →
        servers[Sum64 req1.Host % servers.length]? = some resp.Server ∧
        (∃ path, (walkedPaths assets)[Sum64 req1.Host % (walkedPaths assets).length]?
            = some path ∧ ReadFile assets path = some resp.body) ∧
        resp.ContentLength = resp.body.length := by
  refine ⟨by simp only [ServeHTTP, hhost], ?_⟩
  intro resp h
  simp only [ServeHTTP, decoy] at h
  cases hname : servers[Sum64 req1.Host % servers.length]? with
  | none => simp [hname] at h
  | some name =>
    by_cases hlen : (walkedPaths assets).length = 0
    · simp [hname, hlen] at h
    · cases hpath : (walkedPaths assets)[Sum64 req1.Host % (walkedPaths assets).length]? with
      | none => simp [hname, hlen, hpath] at h
      | some path =>
        cases hpage : ReadFile assets path with
        | none => simp [hname, hlen, hpath, hpage] at h
        | some page =>
          simp only [hname, hlen, hpath, hpage, if_false, Option.some.injEq] at h
          subst h
          exact ⟨rfl, ⟨path, rfl, hpage⟩, rfl⟩

/-- C8 at two requests for the host `a` that differ in everything else, the insert
succeeding for the first and failing for the second. -/
theorem response_depends_on_host_only_witness :
    demoGet.Host = demoPost.Host ∧
      (ServeHTTP demoAssets quietEnv demoGet).response
        = (ServeHTTP demoAssets failingEnv demoPost).response ∧
      (ServeHTTP demoAssets quietEnv demoGet).response
        = some { Server := goStr "Python/3.9.5", ContentLength := 3, body := goStr "<a>" } :=
  ⟨rfl, (response_depends_on_host_only demoAssets quietEnv failingEnv demoGet demoPost rfl).1,
    by decide⟩

theorem tableStep_lt (crc : Nat) (h : crc < 2 ^ 64) : tableStep ECMA crc < 2 ^ 64 := by
  unfold tableStep
  split
  · exact Nat.xor_lt_two_pow (by omega) (by decide)
  · omega

theorem MakeTable_lt (i : Nat) (h : i < 2 ^ 64) : MakeTable ECMA i < 2 ^ 64 := by
  unfold MakeTable
  have key : ∀ n x, x < 2 ^ 64 → (tableStep ECMA)^[n] x < 2 ^ 64 := by
    intro n
    induction n with
    | zero => intro x hx; simpa using hx
    | succ k ih =>
      intro x hx
      rw [Function.iterate_succ_apply]
      exact ih _ (tableStep_lt x hx)
  exact key 8 i h

theorem updateLoop_lt (p : List Byte) :
    ∀ crc, crc < 2 ^ 64 → updateLoop (MakeTable ECMA) crc p < 2 ^ 64 := by
  induction p with
  | nil => intro crc h; simpa [updateLoop] using h
  | cons v p ih =>
    intro crc h
    unfold updateLoop
    apply ih
    have hv : v.toNat < 2 ^ 8 := v.toNat_lt
    have hidx : (crc % 256) ^^^ v.toNat < 2 ^ 8 :=
      Nat.xor_lt_two_pow (by omega) hv
    exact Nat.xor_lt_two_pow (MakeTable_lt _ (by omega)) (by omega)

theorem Sum64_lt (host : GoString) : Sum64 host < 2 ^ 64 := by
  unfold Sum64 update not64
  exact Nat.xor_lt_two_pow (updateLoop_lt host _ (Nat.xor_lt_two_pow (by decide) (by decide)))
    (by decide)

theorem walkedPaths_eq (assets : Entries) :
    walkedPaths assets = goStr "." :: (walkEntries (goStr ".") assets).map Prod.fst := by
  simp [walkedPaths, WalkDir]

/-- C9. For every asset collection and every host (any bytes, none included): the
checksum is a 64-bit value, `servers` has ten entries, the walk yields at least
one path, the checksum reduced modulo ten and modulo the number of paths is below
ten and below that number, and both slices have an element at their index. -/
theorem decoy_indices_in_range (assets : Entries) (host : GoString) :
    Sum64 host < 2 ^ 64 ∧ servers.length = 10 ∧ 1 ≤ (walkedPaths assets).length ∧
      Sum64 host % servers.length < servers.length ∧
      Sum64 host % (walkedPaths assets).length < (walkedPaths assets).length ∧
      (∃ name, servers[Sum64 host % servers.length]? = some name) ∧
      (∃ path, (walkedPaths assets)[Sum64 host % (walkedPaths assets).length]? = some path) := by
  have hN : servers.length = 10 := rfl
  have hM : 1 ≤ (walkedPaths assets).length := by
    rw [walkedPaths_eq]
    simp
  have h1 : Sum64 host % servers.length < servers.length := Nat.mod_lt _ (by omega)
  have h2 : Sum64 host % (walkedPaths assets).length < (walkedPaths assets).length :=
    Nat.mod_lt _ (by omega)
  refine ⟨Sum64_lt host, hN, hM, h1, h2, ⟨_, List.getElem?_eq_getElem h1⟩,
    ⟨_, List.getElem?_eq_getElem h2⟩⟩

/-- The handler panics whenever the path at the selected index is one `fs.ReadFile`
fails on. -/
theorem decoy_none_of_unreadable (assets : Entries) (host path : GoString)
    (hpath : (walkedPaths assets)[Sum64 host % (walkedPaths assets).length]? = some path)
    (hread : ReadFile assets path = none) : decoy assets host = none := by
  unfold decoy
  simp only [hpath, hread]
  cases servers[Sum64 host % servers.length]? with
  | none => rfl
  | some name =>
    by_cases hlen : (walkedPaths assets).length = 0
    · simp only [hlen, if_true]
    · simp only [hlen, if_false]

/-- C10 (the code departs from the claim). For every asset collection and every
request, once its `Host` is the empty string: the checksum is `0`, the path at
index `0` is the root `.` of the walk, `fs.ReadFile` fails on it, and the handler
panics instead of writing a response. -/
theorem empty_host_selects_root_and_panics (assets : Entries) (env : HandlerEnv)
    (req : Request) :
    Sum64 [] = 0 ∧
      (walkedPaths assets)[Sum64 [] % (walkedPaths assets).length]? = some (goStr ".") ∧
      ReadFile assets (goStr ".") = none ∧
      (ServeHTTP assets env { req with Host := [] }).response = none := by
  have hsum : Sum64 [] = 0 := by decide
  have hpath : (walkedPaths assets)[Sum64 [] % (walkedPaths assets).length]?
      = some (goStr ".") := by
    rw [hsum, Nat.zero_mod, walkedPaths_eq]
    simp
  have hread : ReadFile assets (goStr ".") = none := by
    simp [ReadFile, WalkDir, List.lookup]
  refine ⟨hsum, hpath, hread, ?_⟩
  simp only [ServeHTTP]
  exact decoy_none_of_unreadable assets [] (goStr ".") hpath hread

end Honeypot
